import Mathlib

/-!
Verification of the Mandelbrot renderer (src/main.rs, src/colorscheme.rs,
src/renderer.rs) against its natural-language specification.

Modelling conventions, used throughout:

* Rust `f64` values are modelled as exact rationals.  Decimal literals of the
  source (0.16, 0.6425, ...) are taken as the exact rationals they denote.
* Rust `x as u8` on a nonnegative in-range float truncates; in general it
  truncates toward zero and saturates to [0, 255].  Modelled by `f64toU8`.
* Rust `x as i32` / `x as usize` truncate toward zero, modelled by `ratTrunc`
  (saturation at the integer-type bounds never matters at the uses below,
  where values are tiny).
* Rust `%` on floats is the remainder with the sign of the dividend:
  `a % b = a - b * trunc(a / b)`.  Modelled by `rustRem`.
* `u8` channel values are modelled as `Fin 256`.
* The transcendental pieces (`ln`, `sqrt`) of the source are modelled over the
  real numbers; everything else stays in `ℚ` and is executable.
-/

/-- Truncation toward zero of a rational, the rounding used by the Rust casts
`as i32` / `as u8` / `as usize` on a float value. -/
def ratTrunc (q : ℚ) : ℤ :=
  if 0 ≤ q then ⌊q⌋ else ⌈q⌉

/-- Rust floating remainder `a % b`: the remainder with the sign of the
dividend, `a - b * trunc (a / b)`. -/
def rustRem (a b : ℚ) : ℚ :=
  a - b * (ratTrunc (a / b) : ℚ)

/-- Rust `f64::clamp(lo, hi)` for `lo ≤ hi` (the only way it is called in the
source, always with constants `0.0`, `1.0`): the value forced into
`[lo, hi]`. -/
def clampQ (x lo hi : ℚ) : ℚ :=
  max lo (min x hi)

theorem clampInt_lt_256 (z : ℤ) : (max 0 (min z 255)).toNat < 256 := by
  omega

/-- Rust `(x : f64) as u8`: truncate toward zero, saturating to `[0, 255]`. -/
def f64toU8 (q : ℚ) : Fin 256 :=
  ⟨(max 0 (min (ratTrunc q) 255)).toNat, clampInt_lt_256 _⟩

/-- `Color` from src/colorscheme.rs: an RGB triple of `u8` channels. -/
structure Color where
  r : Fin 256
  g : Fin 256
  b : Fin 256
deriving DecidableEq

/-- `Color::new` from src/colorscheme.rs. -/
def Color.new (r g b : Fin 256) : Color := ⟨r, g, b⟩

/-- `Color::lerp` from src/colorscheme.rs: clamp `t` to `[0,1]`, then blend
each channel as `self + (other - self) * t`, truncated back to `u8`. -/
def Color.lerp (self other : Color) (t : ℚ) : Color :=
  let t := clampQ t 0 1
  { r := f64toU8 ((self.r.val : ℚ) + ((other.r.val : ℚ) - (self.r.val : ℚ)) * t)
    g := f64toU8 ((self.g.val : ℚ) + ((other.g.val : ℚ) - (self.g.val : ℚ)) * t)
    b := f64toU8 ((self.b.val : ℚ) + ((other.b.val : ℚ) - (self.b.val : ℚ)) * t) }

/-- `Color::from_hsv` from src/colorscheme.rs.  `h % 360.0` is the Rust float
remainder (sign of the dividend, so a negative `h` stays negative); the sector
match `match h as i32` is on the toward-zero truncation of the reduced hue,
with the last arm as catch-all. -/
def Color.from_hsv (h s v : ℚ) : Color :=
  let h := rustRem h 360
  let s := clampQ s 0 1
  let v := clampQ v 0 1
  let c := v * s
  let x := c * (1 - |rustRem (h / 60) 2 - 1|)
  let m := v - c
  let hi : ℤ := ratTrunc h
  let rgb : ℚ × ℚ × ℚ :=
    if 0 ≤ hi ∧ hi ≤ 59 then (c, x, 0)
    else if 60 ≤ hi ∧ hi ≤ 119 then (x, c, 0)
    else if 120 ≤ hi ∧ hi ≤ 179 then (0, c, x)
    else if 180 ≤ hi ∧ hi ≤ 239 then (0, x, c)
    else if 240 ≤ hi ∧ hi ≤ 299 then (x, 0, c)
    else (c, 0, x)
  { r := f64toU8 ((rgb.1 + m) * 255)
    g := f64toU8 ((rgb.2.1 + m) * 255)
    b := f64toU8 ((rgb.2.2 + m) * 255) }

/-- The comparison key of `Gradient::new`: stops are ordered by position. -/
def posLe (a b : ℚ × Color) : Prop := a.1 ≤ b.1

instance : DecidableRel posLe := fun a b => inferInstanceAs (Decidable (a.1 ≤ b.1))

instance : IsTotal (ℚ × Color) posLe := ⟨fun a b => le_total a.1 b.1⟩

instance : IsTrans (ℚ × Color) posLe := ⟨fun _ _ _ hab hbc => le_trans hab hbc⟩

/-- `Gradient` from src/colorscheme.rs: a list of (position, color) stops. -/
structure Gradient where
  stops : List (ℚ × Color)
deriving DecidableEq

/-- `Gradient::new` from src/colorscheme.rs, for numeric (non-NaN) positions:
`sort_by` on `partial_cmp` of the positions.  Rust slice sorting is stable, so
for a total comparator its result is the unique stable ascending reordering,
modelled by Mathlib insertion sort (which is stable).  The NaN-panicking
behaviour of the same source lines is modelled separately by
`gradientNewChecked` below. -/
def Gradient.new (stops : List (ℚ × Color)) : Gradient :=
  ⟨List.insertionSort posLe stops⟩

/-- The interpolation scan of `Gradient::get_color` (the `for i in
0..self.stops.len() - 1` loop): walk adjacent pairs left to right and at the
first pair with `pos1 ≤ t ≤ pos2` return the lerp at
`(t - pos1) / (pos2 - pos1)`; `none` when no pair matches (the loop falls
through). -/
def scanStops (t : ℚ) : List (ℚ × Color) → Option Color
  | (p1, c1) :: (p2, c2) :: rest =>
      if p1 ≤ t ∧ t ≤ p2 then some (Color.lerp c1 c2 ((t - p1) / (p2 - p1)))
      else scanStops t ((p2, c2) :: rest)
  | _ => none

/-- `Gradient::get_color` from src/colorscheme.rs: clamp `t` to `[0,1]`;
empty stop list gives black; `t ≤` first position gives the first color;
`t ≥` last position gives the last color; otherwise the left-to-right
interpolation scan, with the first stop color as the fall-through. -/
def Gradient.get_color (g : Gradient) (t : ℚ) : Color :=
  let t' := clampQ t 0 1
  match g.stops with
  | [] => Color.new 0 0 0
  | s :: rest =>
      if t' ≤ s.1 then s.2
      else if ((s :: rest).getLast (List.cons_ne_nil s rest)).1 ≤ t' then
        ((s :: rest).getLast (List.cons_ne_nil s rest)).2
      else
        match scanStops t' (s :: rest) with
        | some c => c
        | none => s.2

/-- Instrumentation of the scan of `Gradient::get_color`: `true` exactly when
the first adjacent pair accepted by the scan has `pos2 - pos1 = 0`, i.e. when
the source would evaluate `(t - pos1) / (pos2 - pos1)` with a zero
denominator. -/
def scanStopsDivZero (t : ℚ) : List (ℚ × Color) → Bool
  | (p1, _) :: (p2, c2) :: rest =>
      if p1 ≤ t ∧ t ≤ p2 then decide (p2 - p1 = 0)
      else scanStopsDivZero t ((p2, c2) :: rest)
  | _ => false

/-- Instrumentation of `Gradient::get_color` along its exact control flow:
`true` exactly when the call would evaluate the interpolation quotient with a
zero denominator. -/
def Gradient.hitsDivZero (g : Gradient) (t : ℚ) : Bool :=
  let t' := clampQ t 0 1
  match g.stops with
  | [] => false
  | s :: rest =>
      if t' ≤ s.1 then false
      else if ((s :: rest).getLast (List.cons_ne_nil s rest)).1 ≤ t' then false
      else scanStopsDivZero t' (s :: rest)

/-- `ColorScheme` from src/colorscheme.rs: the closed sum of named palettes
plus a caller-supplied custom gradient. -/
inductive ColorScheme where
  | Grayscale
  | Classic
  | Ocean
  | Fire
  | Psychedelic
  | Forest
  | Sunset
  | Custom (g : Gradient)

/-- The literal stop list rebuilt by the `Classic` arm of both
`ColorScheme::get_color` and `ColorScheme::get_smooth_color` (the source
repeats this literal in each method; it is shared here once). -/
def classicGradient : Gradient :=
  Gradient.new [
    (0, Color.new 0 7 100),
    (0.16, Color.new 32 107 203),
    (0.42, Color.new 237 255 255),
    (0.6425, Color.new 255 170 0),
    (0.8575, Color.new 0 2 0),
    (1, Color.new 0 7 100)]

/-- The literal stop list of the `Ocean` arm. -/
def oceanGradient : Gradient :=
  Gradient.new [
    (0, Color.new 0 0 128),
    (0.3, Color.new 0 128 255),
    (0.6, Color.new 64 224 208),
    (1, Color.new 240 255 255)]

/-- The literal stop list of the `Fire` arm. -/
def fireGradient : Gradient :=
  Gradient.new [
    (0, Color.new 0 0 0),
    (0.25, Color.new 128 0 0),
    (0.5, Color.new 255 0 0),
    (0.75, Color.new 255 165 0),
    (1, Color.new 255 255 0)]

/-- The literal stop list of the `Forest` arm. -/
def forestGradient : Gradient :=
  Gradient.new [
    (0, Color.new 0 20 0),
    (0.3, Color.new 34 139 34),
    (0.6, Color.new 144 238 144),
    (1, Color.new 240 255 240)]

/-- The literal stop list of the `Sunset` arm. -/
def sunsetGradient : Gradient :=
  Gradient.new [
    (0, Color.new 25 25 112),
    (0.3, Color.new 255 69 0),
    (0.6, Color.new 255 140 0),
    (0.8, Color.new 255 215 0),
    (1, Color.new 255 250 205)]

/-- `ColorScheme::get_color` from src/colorscheme.rs: in-set points
(`iterations >= max_iterations`) map to black unconditionally; otherwise the
normalized progress `t = iterations / max_iterations` is fed to the palette
of the variant. -/
def ColorScheme.get_color (scheme : ColorScheme) (iterations max_iterations : ℕ) : Color :=
  if iterations ≥ max_iterations then Color.new 0 0 0
  else
    let t : ℚ := (iterations : ℚ) / (max_iterations : ℚ)
    match scheme with
    | .Grayscale =>
        let intensity := f64toU8 (t * 255)
        Color.new intensity intensity intensity
    | .Classic => classicGradient.get_color t
    | .Ocean => oceanGradient.get_color t
    | .Fire => fireGradient.get_color t
    | .Psychedelic => Color.from_hsv (t * 360 * 3) 1 1
    | .Forest => forestGradient.get_color t
    | .Sunset => sunsetGradient.get_color t
    | .Custom g => g.get_color t

/-!  Real-valued mirrors of the color pipeline.

`ColorScheme::get_smooth_color` feeds the transcendental smooth iteration
count through the same palette code.  The following definitions are the same
source functions as above, at real type, so that the logarithmic smoothing
can be expressed exactly; on rational inputs they agree with the rational
versions.  They are noncomputable only because `ℝ` is. -/

/-- Truncation toward zero of a real (`as u8` / `as i32` rounding). -/
noncomputable def realTrunc (x : ℝ) : ℤ :=
  if 0 ≤ x then ⌊x⌋ else ⌈x⌉

/-- Rust floating remainder on reals. -/
noncomputable def rustRemR (a b : ℝ) : ℝ :=
  a - b * (realTrunc (a / b) : ℝ)

/-- `f64::clamp` on reals. -/
noncomputable def clampR (x lo hi : ℝ) : ℝ :=
  max lo (min x hi)

/-- `(x : f64) as u8` on reals. -/
noncomputable def f64toU8R (x : ℝ) : Fin 256 :=
  ⟨(max 0 (min (realTrunc x) 255)).toNat, clampInt_lt_256 _⟩

/-- `Color::lerp` at real parameter. -/
noncomputable def Color.lerpR (self other : Color) (t : ℝ) : Color :=
  let t := clampR t 0 1
  { r := f64toU8R ((self.r.val : ℝ) + ((other.r.val : ℝ) - (self.r.val : ℝ)) * t)
    g := f64toU8R ((self.g.val : ℝ) + ((other.g.val : ℝ) - (self.g.val : ℝ)) * t)
    b := f64toU8R ((self.b.val : ℝ) + ((other.b.val : ℝ) - (self.b.val : ℝ)) * t) }

/-- `Color::from_hsv` at real hue/saturation/value. -/
noncomputable def Color.from_hsvR (h s v : ℝ) : Color :=
  let h := rustRemR h 360
  let s := clampR s 0 1
  let v := clampR v 0 1
  let c := v * s
  let x := c * (1 - |rustRemR (h / 60) 2 - 1|)
  let m := v - c
  let hi : ℤ := realTrunc h
  let rgb : ℝ × ℝ × ℝ :=
    if 0 ≤ hi ∧ hi ≤ 59 then (c, x, 0)
    else if 60 ≤ hi ∧ hi ≤ 119 then (x, c, 0)
    else if 120 ≤ hi ∧ hi ≤ 179 then (0, c, x)
    else if 180 ≤ hi ∧ hi ≤ 239 then (0, x, c)
    else if 240 ≤ hi ∧ hi ≤ 299 then (x, 0, c)
    else (c, 0, x)
  { r := f64toU8R ((rgb.1 + m) * 255)
    g := f64toU8R ((rgb.2.1 + m) * 255)
    b := f64toU8R ((rgb.2.2 + m) * 255) }

/-- The interpolation scan of `Gradient::get_color` at real query value
(stop positions are cast from their rational values). -/
noncomputable def scanStopsR (t : ℝ) : List (ℚ × Color) → Option Color
  | (p1, c1) :: (p2, c2) :: rest =>
      if (p1 : ℝ) ≤ t ∧ t ≤ (p2 : ℝ) then
        some (Color.lerpR c1 c2 ((t - (p1 : ℝ)) / ((p2 : ℝ) - (p1 : ℝ))))
      else scanStopsR t ((p2, c2) :: rest)
  | _ => none

/-- `Gradient::get_color` at real query value. -/
noncomputable def Gradient.get_colorR (g : Gradient) (t : ℝ) : Color :=
  let t' := clampR t 0 1
  match g.stops with
  | [] => Color.new 0 0 0
  | s :: rest =>
      if t' ≤ (s.1 : ℝ) then s.2
      else if (((s :: rest).getLast (List.cons_ne_nil s rest)).1 : ℝ) ≤ t' then
        ((s :: rest).getLast (List.cons_ne_nil s rest)).2
      else
        match scanStopsR t' (s :: rest) with
        | some c => c
        | none => s.2

/-- `ColorScheme::get_smooth_color` from src/colorscheme.rs: same in-set
short-circuit to black; otherwise the renormalized escape count
`iterations + 1 - ln(ln(z_norm) / ln 2) / ln 2`, normalized by
`max_iterations`, clamped to `[0,1]`, drives the same palette dispatch.
(The Rust `f64::ln` of a nonpositive argument is NaN; `Real.log` of a
nonpositive argument is `0`.  The two agree wherever the documented
precondition `z_norm > 1` holds, and no claim below evaluates the palette at
a nonpositive logarithm.) -/
noncomputable def ColorScheme.get_smooth_color (scheme : ColorScheme)
    (iterations max_iterations : ℕ) (z_norm : ℝ) : Color :=
  if iterations ≥ max_iterations then Color.new 0 0 0
  else
    let smooth_iter : ℝ :=
      (iterations : ℝ) + 1 - Real.log (Real.log z_norm / Real.log 2) / Real.log 2
    let t := smooth_iter / (max_iterations : ℝ)
    let t := clampR t 0 1
    match scheme with
    | .Grayscale =>
        let intensity := f64toU8R (t * 255)
        Color.new intensity intensity intensity
    | .Classic => classicGradient.get_colorR t
    | .Ocean => oceanGradient.get_colorR t
    | .Fire => fireGradient.get_colorR t
    | .Psychedelic => Color.from_hsvR (t * 360 * 3) 1 1
    | .Forest => forestGradient.get_colorR t
    | .Sunset => sunsetGradient.get_colorR t
    | .Custom g => g.get_colorR t

/-- `MandelbrotResult` from src/main.rs.  The source stores the magnitude
`z_norm = |z|` (computed with `Complex::norm`, a square root); here the exact
squared magnitude is stored instead, and `MandelbrotResult.z_norm` below
recovers the magnitude as its square root.  The escape test `|z| > 2.0` of
the source is equivalently the test `normSq z > 4` on the stored value. -/
structure MandelbrotResult where
  iterations : ℕ
  z_normSq : ℚ
deriving DecidableEq

/-- The magnitude reported by the source (`z.norm()`), recovered from the
stored squared magnitude. -/
noncomputable def MandelbrotResult.z_norm (r : MandelbrotResult) : ℝ :=
  Real.sqrt (r.z_normSq : ℝ)

/-- Squared magnitude of a complex number represented as (re, im). -/
def normSq (z : ℚ × ℚ) : ℚ := z.1 * z.1 + z.2 * z.2

/-- One iteration step `z ← z² + c` in coordinates. -/
def mandelStep (c z : ℚ × ℚ) : ℚ × ℚ :=
  (z.1 * z.1 - z.2 * z.2 + c.1, 2 * (z.1 * z.2) + c.2)

/-- The `for i in 0..max_iters` loop of `mandelbrot_at_point`: at loop index
`i` with `fuel` indices remaining (`i + fuel = max_iters`), test
`|z| > 2.0` (as `normSq z > 4`) before the update; on escape report
`(i, |z|)`; on exhausted budget report `(max_iters, |z_final|)`. -/
def mandelGo (c : ℚ × ℚ) (max_iters : ℕ) : (ℚ × ℚ) → ℕ → ℕ → MandelbrotResult
  | z, _, 0 => ⟨max_iters, normSq z⟩
  | z, i, fuel + 1 =>
      if 4 < normSq z then ⟨i, normSq z⟩
      else mandelGo c max_iters (mandelStep c z) (i + 1) fuel

/-- `mandelbrot_at_point` from src/main.rs: iterate `z ← z² + c` from
`z = 0`, `c = cx + i·cy`, checking the escape test before each update. -/
def mandelbrot_at_point (cx cy : ℚ) (max_iters : ℕ) : MandelbrotResult :=
  mandelGo (cx, cy) max_iters (0, 0) 0 max_iters

/-- `calculate_mandelbrot` from src/main.rs: map each pixel `(img_x, img_y)`
of a `width × height` grid linearly onto the plane rectangle and evaluate
`mandelbrot_at_point`, collecting one row per `img_y` into an iteration grid
and a magnitude grid (here: squared-magnitude grid, see
`MandelbrotResult`). -/
def calculate_mandelbrot (max_iters : ℕ) (x_min x_max y_min y_max : ℚ)
    (width height : ℕ) : List (List ℕ) × List (List ℚ) :=
  let rows : List (List MandelbrotResult) :=
    (List.range height).map fun (img_y : ℕ) =>
      (List.range width).map fun (img_x : ℕ) =>
        let x_percent : ℚ := (img_x : ℚ) / (width : ℚ)
        let y_percent : ℚ := (img_y : ℚ) / (height : ℚ)
        let cx := x_min + (x_max - x_min) * x_percent
        let cy := y_min + (y_max - y_min) * y_percent
        mandelbrot_at_point cx cy max_iters
  (rows.map (·.map MandelbrotResult.iterations),
   rows.map (·.map MandelbrotResult.z_normSq))

/-- `OutputFormat` from src/renderer.rs. -/
inductive OutputFormat where
  | Ascii
  | AsciiExtended
  | Ansi256
  | AnsiTrueColor

/-- `RenderData` from src/renderer.rs (the `z_norms` grid stores squared
magnitudes, see `MandelbrotResult`). -/
structure RenderData where
  iterations : List (List ℕ)
  z_normSqs : List (List ℚ)
  max_iterations : ℕ

/-- `RenderData::width`: length of the first row, `0` for an empty grid. -/
def RenderData.width (data : RenderData) : ℕ :=
  (data.iterations.headD []).length

/-- `RenderData::height`: the number of rows. -/
def RenderData.height (data : RenderData) : ℕ :=
  data.iterations.length

/-- `Renderer` from src/renderer.rs. -/
structure Renderer where
  color_scheme : ColorScheme
  output_format : OutputFormat
  use_smooth_coloring : Bool

/-- The 10-glyph ramp of `Renderer::render_ascii`. -/
def asciiChars : List Char :=
  [' ', '.', ':', '-', '=', '+', '*', '#', '%', '@']

/-- The 20-glyph ramp of `Renderer::render_ascii_extended`. -/
def asciiExtendedChars : List Char :=
  [' ', '·', '∙', '•', '○', '◦', '⋅', '⋆', '∗', '⊕',
   '⊗', '⊛', '⊚', '◉', '●', '◐', '◑', '◒', '◓', '█']

/-- Glyph choice common to both ASCII render paths: in-set cells
(`iters >= max_iterations`) print a space; escaped cells print the ramp
entry at `(iters / max_iterations * (len - 1)) as usize`, index clamped by
`.min(len - 1)`.  Grid cells are read with a default (the source indexes
directly and would panic on a jagged grid; every use below is in bounds). -/
def asciiGlyph (chars : List Char) (iters max_iterations : ℕ) : Char :=
  if iters ≥ max_iterations then ' '
  else
    let idx := (⌊((iters : ℚ) / (max_iterations : ℚ)) * ((chars.length : ℚ) - 1)⌋).toNat
    chars.getD (min idx (chars.length - 1)) ' '

/-- `Renderer::render_ascii` from src/renderer.rs, as the grid of printed
characters (row `y` of the result is the line printed for `y`). -/
def Renderer.render_ascii (_self : Renderer) (data : RenderData) : List (List Char) :=
  (List.range data.height).map fun y =>
    (List.range data.width).map fun x =>
      asciiGlyph asciiChars ((data.iterations.getD y []).getD x 0) data.max_iterations

/-- `Renderer::render_ascii_extended` from src/renderer.rs. -/
def Renderer.render_ascii_extended (_self : Renderer) (data : RenderData) : List (List Char) :=
  (List.range data.height).map fun y =>
    (List.range data.width).map fun x =>
      asciiGlyph asciiExtendedChars ((data.iterations.getD y []).getD x 0) data.max_iterations

/-- The per-pixel color resolution shared by the colored render paths of
src/renderer.rs: smooth or discrete per the `use_smooth_coloring` flag.  The
magnitude handed to `get_smooth_color` is the square root of the stored
squared magnitude (the source passes the stored `z_norm` directly). -/
noncomputable def Renderer.resolveColor (self : Renderer) (max_iterations iters : ℕ)
    (zsq : ℚ) : Color :=
  if self.use_smooth_coloring then
    self.color_scheme.get_smooth_color iters max_iterations (Real.sqrt (zsq : ℝ))
  else
    self.color_scheme.get_color iters max_iterations

/-- The bytes of a string (every byte written by the PPM header is ASCII, so
byte values and character code points coincide). -/
def strBytes (s : String) : List ℕ :=
  s.data.map Char.toNat

/-- The exact PPM header demanded by the spec: `P6`, newline, width, space,
height, newline, `255`, newline. -/
def ppmHeaderString (w h : ℕ) : String :=
  "P6\n" ++ (toString w ++ " " ++ toString h ++ "\n") ++ "255\n"

/-- The pixel-data part of `Renderer::save_as_ppm`: for each pixel in
row-major order (rows top to bottom, cells left to right), the three raw
channel bytes of the resolved color. -/
noncomputable def ppmBody (self : Renderer) (data : RenderData) : List ℕ :=
  ((List.range data.height).map fun y =>
    ((List.range data.width).map fun x =>
      let c := self.resolveColor data.max_iterations
        ((data.iterations.getD y []).getD x 0) ((data.z_normSqs.getD y []).getD x 0)
      [c.r.val, c.g.val, c.b.val]).flatten).flatten

/-- `Renderer::save_as_ppm` from src/renderer.rs, as the byte stream it
writes: three `writeln!` header lines (`P6`, `width height`, `255`), then
the raw pixel bytes. -/
noncomputable def Renderer.save_as_ppm_bytes (self : Renderer) (data : RenderData) : List ℕ :=
  strBytes "P6\n"
    ++ strBytes (toString data.width ++ " " ++ toString data.height ++ "\n")
    ++ strBytes "255\n"
    ++ ppmBody self data

/-- NaN-aware model of `Gradient::new` (src/colorscheme.rs): positions are
`Option ℚ` with `none` playing the role of an `f64` NaN.  The comparator
`a.0.partial_cmp(&b.0).unwrap()` is `optionCmp`, which fails (`none`) when
either side is NaN — in Rust the `unwrap` panics.  `sortByCmp` is stable
insertion sort with this failable comparator: for a total comparator, Rust
`slice::sort_by` is stable, so its output is the unique stable ascending
reordering, which insertion sort computes; a comparator failure anywhere
aborts construction (`none` = panic). -/
def optionCmp : Option ℚ → Option ℚ → Option Ordering
  | some a, some b => some (if a < b then .lt else if a = b then .eq else .gt)
  | _, _ => none

/-- Insert a stop into an already sorted run, comparing with `optionCmp`:
walk past every stop strictly smaller, stop at the first stop not smaller
(so stops comparing equal keep their original relative order). -/
def orderedInsertCmp (x : (Option ℚ) × Color) :
    List ((Option ℚ) × Color) → Option (List ((Option ℚ) × Color))
  | [] => some [x]
  | y :: l =>
      match optionCmp x.1 y.1 with
      | none => none
      | some .gt => (orderedInsertCmp x l).map fun r => y :: r
      | some _ => some (x :: y :: l)

/-- Stable insertion sort with the failable comparator. -/
def sortByCmp : List ((Option ℚ) × Color) → Option (List ((Option ℚ) × Color))
  | [] => some []
  | x :: l => (sortByCmp l).bind (orderedInsertCmp x)

/-- `Gradient::new` with NaN-able positions: `none` is a panic of the
position comparator. -/
def gradientNewChecked (stops : List ((Option ℚ) × Color)) :
    Option (List ((Option ℚ) × Color)) :=
  sortByCmp stops

/-- Boolean position order on NaN-able stops (`false` whenever either
position is NaN). -/
def stopLeB (a b : (Option ℚ) × Color) : Bool :=
  match a.1, b.1 with
  | some x, some y => decide (x ≤ y)
  | _, _ => false

/-! Helper lemmas. -/

theorem mandelGo_zero (c : ℚ × ℚ) (m : ℕ) (z : ℚ × ℚ) (i : ℕ) :
    mandelGo c m z i 0 = ⟨m, normSq z⟩ := rfl

theorem mandelGo_succ (c : ℚ × ℚ) (m : ℕ) (z : ℚ × ℚ) (i fuel : ℕ) :
    mandelGo c m z i (fuel + 1) =
      if 4 < normSq z then ⟨i, normSq z⟩
      else mandelGo c m (mandelStep c z) (i + 1) fuel := rfl

theorem getD_map_range {α : Type} {n y : ℕ} (hy : y < n) (F : ℕ → α) (d : α) :
    ((List.range n).map F).getD y d = F y := by
  simp [List.getD, List.getElem?_map, List.getElem?_range, hy]

theorem mandelGo_escape_normSq (c : ℚ × ℚ) (max_iters : ℕ) :
    ∀ (fuel : ℕ) (z : ℚ × ℚ) (i : ℕ),
      (mandelGo c max_iters z i fuel).iterations < max_iters →
      4 < (mandelGo c max_iters z i fuel).z_normSq := by
  intro fuel
  induction fuel with
  | zero =>
      intro z i h
      exact absurd h (by simp [mandelGo])
  | succ n ih =>
      intro z i h
      by_cases h4 : 4 < normSq z
      · simp [mandelGo, h4]
      · simp only [mandelGo, if_neg h4] at h ⊢
        exact ih _ _ h

theorem mandelbrot_at_point_3_0 (max_iters : ℕ) (h : 1 ≤ max_iters) :
    mandelbrot_at_point 3 0 max_iters = ⟨1, 9⟩ := by
  obtain ⟨k, rfl⟩ : ∃ k, max_iters = k + 1 := ⟨max_iters - 1, by omega⟩
  show mandelGo (3, 0) (k + 1) (0, 0) 0 (k + 1) = ⟨1, 9⟩
  have h0 : ¬ (4 < normSq ((0 : ℚ), (0 : ℚ))) := by norm_num [normSq]
  have hstep : mandelStep (3, 0) (0, 0) = ((3 : ℚ), (0 : ℚ)) := by
    norm_num [mandelStep]
  rw [mandelGo_succ, if_neg h0, hstep]
  cases k with
  | zero =>
      rw [mandelGo_zero]
      norm_num [normSq]
  | succ m =>
      have h9 : 4 < normSq ((3 : ℚ), (0 : ℚ)) := by norm_num [normSq]
      rw [mandelGo_succ, if_pos h9]
      norm_num [normSq]

/-! Claim theorems. -/

/-- Claim C1 (amended): for the point `c = 3 + 0i` and every budget
`max_iters ≥ 1`, `mandelbrot_at_point` reports iteration count 1 and
magnitude 3 — under the stated counting rule (`z_0 = 0`, escape at the first
`i` with `|z_i| > 2`) the escape happens at iteration 1, since `|z_0| = 0`
and `|z_1| = |c| = 3`; at `max_iters = 1` the same pair `(1, 3)` is reported
by budget exhaustion. -/
theorem escape_at_3_is_iteration_one (max_iters : ℕ) (h : 1 ≤ max_iters) :
    (mandelbrot_at_point 3 0 max_iters).iterations = 1 ∧
    (mandelbrot_at_point 3 0 max_iters).z_norm = 3 := by
  rw [mandelbrot_at_point_3_0 max_iters h]
  refine ⟨rfl, ?_⟩
  show Real.sqrt ((9 : ℚ) : ℝ) = 3
  rw [show ((9 : ℚ) : ℝ) = (3 : ℝ) ^ 2 by norm_num,
    Real.sqrt_sq (by norm_num : (0 : ℝ) ≤ 3)]

/-- Claim C1, concrete escape-probe: with budget 5 the reported iteration
count at `c = 3 + 0i` is 1, not 0 as the claim states. -/
theorem escape_at_3_not_iteration_zero :
    (mandelbrot_at_point 3 0 5).iterations ≠ 0 := by
  rw [mandelbrot_at_point_3_0 5 (by norm_num)]
  norm_num

/-- Claim C1 witness at `max_iters = 5`. -/
theorem escape_at_3_is_iteration_one_witness :
    (1 ≤ 5) ∧ ((mandelbrot_at_point 3 0 5).iterations = 1 ∧
      (mandelbrot_at_point 3 0 5).z_norm = 3) :=
  ⟨by norm_num, escape_at_3_is_iteration_one 5 (by norm_num)⟩

/-- Claim C2: for every `ColorScheme` variant (the seven named palettes and
`Custom` with any gradient), every budget, every iteration count
`i ≥ max_iterations` and every magnitude, both `get_color` and
`get_smooth_color` return pure black. -/
theorem in_set_maps_to_black (scheme : ColorScheme) (i max_iterations : ℕ) (z : ℝ)
    (h : i ≥ max_iterations) :
    scheme.get_color i max_iterations = Color.new 0 0 0 ∧
    scheme.get_smooth_color i max_iterations z = Color.new 0 0 0 := by
  constructor
  · unfold ColorScheme.get_color
    rw [if_pos h]
  · unfold ColorScheme.get_smooth_color
    rw [if_pos h]

/-- Claim C2 witness: a custom palette, `i = 5 ≥ 3 = max_iterations`. -/
theorem in_set_maps_to_black_witness :
    (5 ≥ 3) ∧
    ((ColorScheme.Custom (Gradient.new [(0, Color.new 9 9 9)])).get_color 5 3 =
        Color.new 0 0 0 ∧
      (ColorScheme.Custom (Gradient.new [(0, Color.new 9 9 9)])).get_smooth_color 5 3 7 =
        Color.new 0 0 0) :=
  ⟨by norm_num,
   in_set_maps_to_black (ColorScheme.Custom (Gradient.new [(0, Color.new 9 9 9)])) 5 3 7
     (by norm_num)⟩

/-- Claim C6: whenever `mandelbrot_at_point` reports `iterations < max_iters`
(the point escaped), the reported magnitude exceeds 2, hence exceeds 1, so
the smooth-coloring precondition `z_norm > 1` holds for every escaped cell. -/
theorem escaped_magnitude_exceeds_two (cx cy : ℚ) (max_iters : ℕ)
    (h : (mandelbrot_at_point cx cy max_iters).iterations < max_iters) :
    2 < (mandelbrot_at_point cx cy max_iters).z_norm ∧
    1 < (mandelbrot_at_point cx cy max_iters).z_norm := by
  have h4 : 4 < (mandelbrot_at_point cx cy max_iters).z_normSq :=
    mandelGo_escape_normSq (cx, cy) max_iters max_iters (0, 0) 0 h
  have h4' : (4 : ℝ) < ((mandelbrot_at_point cx cy max_iters).z_normSq : ℝ) := by
    exact_mod_cast h4
  have h2 : 2 < (mandelbrot_at_point cx cy max_iters).z_norm := by
    rw [MandelbrotResult.z_norm]
    refine (Real.lt_sqrt (by norm_num)).mpr ?_
    calc ((2 : ℝ)) ^ 2 = 4 := by norm_num
    _ < _ := h4'
  exact ⟨h2, lt_trans (by norm_num) h2⟩

/-- Claim C6 witness at `c = 3 + 0i`, budget 5. -/
theorem escaped_magnitude_exceeds_two_witness :
    ((mandelbrot_at_point 3 0 5).iterations < 5) ∧
    (2 < (mandelbrot_at_point 3 0 5).z_norm ∧ 1 < (mandelbrot_at_point 3 0 5).z_norm) :=
  ⟨by rw [mandelbrot_at_point_3_0 5 (by norm_num)]; norm_num,
   escaped_magnitude_exceeds_two 3 0 5
     (by rw [mandelbrot_at_point_3_0 5 (by norm_num)]; norm_num)⟩

/-- Claim C7: `calculate_mandelbrot` produces exactly `height` rows in both
grids, and every row (read by index) has exactly `width` entries — the two
grids have identical, non-jagged dimensions. -/
theorem grids_are_rectangular (max_iters : ℕ) (x_min x_max y_min y_max : ℚ)
    (width height : ℕ) :
    (calculate_mandelbrot max_iters x_min x_max y_min y_max width height).1.length = height ∧
    (calculate_mandelbrot max_iters x_min x_max y_min y_max width height).2.length = height ∧
    ∀ y, y < height →
      ((calculate_mandelbrot max_iters x_min x_max y_min y_max width height).1.getD y
          []).length = width ∧
      ((calculate_mandelbrot max_iters x_min x_max y_min y_max width height).2.getD y
          []).length = width := by
  refine ⟨?_, ?_, ?_⟩
  · simp only [calculate_mandelbrot, List.length_map, List.length_range]
  · simp only [calculate_mandelbrot, List.length_map, List.length_range]
  · intro y hy
    constructor <;>
    · simp only [calculate_mandelbrot, List.map_map]
      rw [getD_map_range hy]
      simp only [Function.comp_apply, List.length_map, List.length_range]

/-- Claim C7 witness: a 2×2 request, row 0 probed. -/
theorem grids_are_rectangular_witness :
    (calculate_mandelbrot 3 (-2) 1 (-1) 1 2 2).1.length = 2 ∧
    ((calculate_mandelbrot 3 (-2) 1 (-1) 1 2 2).1.getD 0 []).length = 2 ∧
    ((calculate_mandelbrot 3 (-2) 1 (-1) 1 2 2).2.getD 0 []).length = 2 :=
  ⟨(grids_are_rectangular 3 (-2) 1 (-1) 1 2 2).1,
   ((grids_are_rectangular 3 (-2) 1 (-1) 1 2 2).2.2 0 (by norm_num)).1,
   ((grids_are_rectangular 3 (-2) 1 (-1) 1 2 2).2.2 0 (by norm_num)).2⟩

theorem asciiGlyph_ten (iters max_iterations : ℕ) :
    asciiGlyph asciiChars iters max_iterations =
      if iters ≥ max_iterations then ' '
      else asciiChars.getD
        (min (⌊((iters : ℚ) / (max_iterations : ℚ)) * 9⌋).toNat 9) ' ' := by
  unfold asciiGlyph
  norm_num [show asciiChars.length = 10 from rfl]

theorem asciiGlyph_twenty (iters max_iterations : ℕ) :
    asciiGlyph asciiExtendedChars iters max_iterations =
      if iters ≥ max_iterations then ' '
      else asciiExtendedChars.getD
        (min (⌊((iters : ℚ) / (max_iterations : ℚ)) * 19⌋).toNat 19) ' ' := by
  unfold asciiGlyph
  norm_num [show asciiExtendedChars.length = 20 from rfl]

/-- Claim C8: in both ASCII render paths, an in-set cell
(`iterations ≥ max_iterations`) prints the blank space glyph, and an escaped
cell prints the ramp entry at index
`floor(iterations / max_iterations * (N - 1))` clamped to the last index
(`N = 10` for `render_ascii`, `N = 20` for `render_ascii_extended`). -/
theorem ascii_render_glyphs (rend : Renderer) (data : RenderData) (y x : ℕ)
    (hy : y < data.height) (hx : x < data.width) :
    ((rend.render_ascii data).getD y []).getD x 'Z' =
      (if (data.iterations.getD y []).getD x 0 ≥ data.max_iterations then ' '
       else asciiChars.getD
         (min (⌊(((data.iterations.getD y []).getD x 0 : ℚ) /
            (data.max_iterations : ℚ)) * 9⌋).toNat 9) ' ') ∧
    ((rend.render_ascii_extended data).getD y []).getD x 'Z' =
      (if (data.iterations.getD y []).getD x 0 ≥ data.max_iterations then ' '
       else asciiExtendedChars.getD
         (min (⌊(((data.iterations.getD y []).getD x 0 : ℚ) /
            (data.max_iterations : ℚ)) * 19⌋).toNat 19) ' ') := by
  constructor
  · rw [Renderer.render_ascii, getD_map_range hy, getD_map_range hx, asciiGlyph_ten]
  · rw [Renderer.render_ascii_extended, getD_map_range hy, getD_map_range hx,
      asciiGlyph_twenty]

/-- Claim C8 witness: a 2×2 grid with budget 10, cell (0, 1). -/
theorem ascii_render_glyphs_witness :
    (0 < (RenderData.mk [[0, 5], [10, 10]] [[0, 0], [0, 0]] 10).height) ∧
    (1 < (RenderData.mk [[0, 5], [10, 10]] [[0, 0], [0, 0]] 10).width) ∧
    (((Renderer.mk ColorScheme.Grayscale OutputFormat.Ascii false).render_ascii
        (RenderData.mk [[0, 5], [10, 10]] [[0, 0], [0, 0]] 10)).getD 0 []).getD 1 'Z' =
      (if ((RenderData.mk [[0, 5], [10, 10]] [[0, 0], [0, 0]] 10).iterations.getD 0
            []).getD 1 0 ≥ 10 then ' '
       else asciiChars.getD
         (min (⌊((((RenderData.mk [[0, 5], [10, 10]] [[0, 0], [0, 0]] 10).iterations.getD
            0 []).getD 1 0 : ℚ) / (10 : ℚ)) * 9⌋).toNat 9) ' ') :=
  ⟨by decide, by decide,
   (ascii_render_glyphs (Renderer.mk ColorScheme.Grayscale OutputFormat.Ascii false)
      (RenderData.mk [[0, 5], [10, 10]] [[0, 0], [0, 0]] 10) 0 1
      (by decide) (by decide)).1⟩

theorem strBytes_append (a b : String) : strBytes (a ++ b) = strBytes a ++ strBytes b := by
  simp [strBytes, String.data_append]

theorem ppmBody_length (rend : Renderer) (data : RenderData) :
    (ppmBody rend data).length = 3 * data.width * data.height := by
  simp only [ppmBody, List.length_flatten, List.map_map, Function.comp_def,
    List.length_cons, List.length_nil]
  simp
  ring

/-- Claim C9: the byte stream written by `save_as_ppm` is exactly the header
`P6`, newline, width, space, height, newline, `255`, newline (as
`ppmHeaderString`), followed by a body of exactly `3 * width * height` raw
RGB bytes and nothing else. -/
theorem ppm_stream_shape (rend : Renderer) (data : RenderData) :
    ∃ body : List ℕ,
      rend.save_as_ppm_bytes data =
        strBytes (ppmHeaderString data.width data.height) ++ body ∧
      body.length = 3 * data.width * data.height := by
  refine ⟨ppmBody rend data, ?_, ppmBody_length rend data⟩
  unfold Renderer.save_as_ppm_bytes ppmHeaderString
  simp [strBytes_append, List.append_assoc]

theorem rustRem_eq_sub_floor (h : ℚ) (hh : 0 ≤ h) :
    rustRem h 360 = h - 360 * ⌊h / 360⌋ := by
  unfold rustRem ratTrunc
  rw [if_pos (div_nonneg hh (by norm_num))]

theorem sub_floor_bounds (h : ℚ) :
    0 ≤ h - 360 * ⌊h / 360⌋ ∧ h - 360 * ⌊h / 360⌋ < 360 := by
  have h1 : (0 : ℚ) ≤ Int.fract (h / 360) := Int.fract_nonneg _
  have h2 : Int.fract (h / 360) < 1 := Int.fract_lt_one _
  have e : h - 360 * ⌊h / 360⌋ = 360 * Int.fract (h / 360) := by
    rw [Int.fract]
    field_simp
  rw [e]
  constructor
  · linarith
  · linarith

theorem rustRem_eq_self (r : ℚ) (h0 : 0 ≤ r) (h1 : r < 360) : rustRem r 360 = r := by
  unfold rustRem ratTrunc
  rw [if_pos (div_nonneg h0 (by norm_num))]
  rw [show ⌊r / 360⌋ = 0 from Int.floor_eq_zero_iff.mpr
    ⟨div_nonneg h0 (by norm_num), by rw [div_lt_one (by norm_num : (0:ℚ) < 360)]; exact h1⟩]
  norm_num

theorem from_hsv_congr (h r s v : ℚ) (e : rustRem h 360 = rustRem r 360) :
    Color.from_hsv h s v = Color.from_hsv r s v := by
  simp only [Color.from_hsv]
  rw [e]

/-- Claim C5 (amended): for every `h ≥ 0` (and all `s`, `v`), `from_hsv`
agrees with itself at the representative of `h` reduced modulo 360 into
`[0, 360)`.  For negative `h` the Rust `%` keeps the sign of the dividend and
the source does not renormalize, so the reduction into `[0, 360)` fails there
(see the counterexample at `h = -30`). -/
theorem from_hsv_wraps_nonneg (h s v : ℚ) (hh : 0 ≤ h) :
    Color.from_hsv h s v = Color.from_hsv (h - 360 * ⌊h / 360⌋) s v ∧
    0 ≤ h - 360 * ⌊h / 360⌋ ∧ h - 360 * ⌊h / 360⌋ < 360 := by
  obtain ⟨hb0, hb1⟩ := sub_floor_bounds h
  refine ⟨from_hsv_congr _ _ s v ?_, hb0, hb1⟩
  rw [rustRem_eq_sub_floor h hh, rustRem_eq_self _ hb0 hb1]

/-- Claim C5, concrete wrap-probe: `from_hsv(-30, 1, 1)` is `(255, 0, 0)`
(the Rust `%` leaves `-30` negative and the catch-all sector computes a
negative blue component, saturated to 0), while the wrapped hue gives
`from_hsv(330, 1, 1) = (255, 0, 127)`. -/
theorem from_hsv_negative_hue_differs :
    Color.from_hsv (-30) 1 1 ≠ Color.from_hsv 330 1 1 := by
  have h1 : Color.from_hsv (-30) 1 1 = Color.new 255 0 0 := by
    norm_num [Color.from_hsv, Color.new, rustRem, ratTrunc, clampQ, f64toU8, Int.ceil_neg,
      abs, max_def, min_def]
    decide
  have h2 : Color.from_hsv 330 1 1 = Color.new 255 0 127 := by
    norm_num [Color.from_hsv, Color.new, rustRem, ratTrunc, clampQ, f64toU8, Int.ceil_neg,
      abs, max_def, min_def]
    decide
  rw [h1, h2]
  decide

/-- Claim C5 witness at `h = 390`. -/
theorem from_hsv_wraps_nonneg_witness :
    (0 ≤ (390 : ℚ)) ∧
    (Color.from_hsv 390 1 1 = Color.from_hsv (390 - 360 * ⌊(390 : ℚ) / 360⌋) 1 1 ∧
      0 ≤ (390 : ℚ) - 360 * ⌊(390 : ℚ) / 360⌋ ∧
      (390 : ℚ) - 360 * ⌊(390 : ℚ) / 360⌋ < 360) :=
  ⟨by norm_num, from_hsv_wraps_nonneg 390 1 1 (by norm_num)⟩

theorem scanStopsDivZero_cons₂ (t p1 p2 : ℚ) (c1 c2 : Color) (rest : List (ℚ × Color)) :
    scanStopsDivZero t ((p1, c1) :: (p2, c2) :: rest) =
      if p1 ≤ t ∧ t ≤ p2 then decide (p2 - p1 = 0)
      else scanStopsDivZero t ((p2, c2) :: rest) := rfl

theorem scanStops_cons₂ (t p1 p2 : ℚ) (c1 c2 : Color) (rest : List (ℚ × Color)) :
    scanStops t ((p1, c1) :: (p2, c2) :: rest) =
      if p1 ≤ t ∧ t ≤ p2 then some (Color.lerp c1 c2 ((t - p1) / (p2 - p1)))
      else scanStops t ((p2, c2) :: rest) := rfl

theorem hitsDivZero_cons (s : ℚ × Color) (rest : List (ℚ × Color)) (t : ℚ) :
    Gradient.hitsDivZero ⟨s :: rest⟩ t =
      (if clampQ t 0 1 ≤ s.1 then false
       else if ((s :: rest).getLast (List.cons_ne_nil s rest)).1 ≤ clampQ t 0 1 then false
       else scanStopsDivZero (clampQ t 0 1) (s :: rest)) := rfl

theorem scanStopsDivZero_false (t : ℚ) :
    ∀ (rest : List (ℚ × Color)) (p1 : ℚ) (c1 : Color), p1 < t →
      scanStopsDivZero t ((p1, c1) :: rest) = false := by
  intro rest
  induction rest with
  | nil => intro p1 c1 _; rfl
  | cons s rest ih =>
      intro p1 c1 hlt
      obtain ⟨p2, c2⟩ := s
      rw [scanStopsDivZero_cons₂]
      by_cases hc : p1 ≤ t ∧ t ≤ p2
      · rw [if_pos hc]
        have hne : p2 - p1 ≠ 0 := sub_ne_zero.mpr (ne_of_gt (lt_of_lt_of_le hlt hc.2))
        simpa using hne
      · rw [if_neg hc]
        have hp2 : p2 < t := by
          by_contra hle
          exact hc ⟨le_of_lt hlt, le_of_not_lt hle⟩
        exact ih p2 c2 hp2

theorem hitsDivZero_false (g : Gradient) (t : ℚ) : g.hitsDivZero t = false := by
  obtain ⟨stops⟩ := g
  cases stops with
  | nil => rfl
  | cons s rest =>
      rw [hitsDivZero_cons]
      by_cases h1 : clampQ t 0 1 ≤ s.1
      · rw [if_pos h1]
      · rw [if_neg h1]
        by_cases h2 : ((s :: rest).getLast (List.cons_ne_nil s rest)).1 ≤ clampQ t 0 1
        · rw [if_pos h2]
        · rw [if_neg h2]
          obtain ⟨p1, c1⟩ := s
          exact scanStopsDivZero_false _ rest p1 c1 (lt_of_not_le h1)

/-- Claim C4 (amended): for every constructed gradient and every query
value, `Gradient::get_color` never evaluates the interpolation quotient
`(t - pos1) / (pos2 - pos1)` with `pos2 = pos1`: whenever the left-to-right
scan accepts a pair, the early returns and the first-match rule force
`pos1 < t ≤ pos2`, so the denominator is strictly positive and the division
by zero the spec warns about is unreachable. -/
theorem gradient_scan_never_divides_by_zero (l : List (ℚ × Color)) (t : ℚ) :
    (Gradient.new l).hitsDivZero t = false :=
  hitsDivZero_false (Gradient.new l) t

/-- Claim C4, refutation of the stated reachability: no gradient with an
adjacent duplicated position (positions in `[0, 1]`) and no query value make
the scan of `Gradient::get_color` divide by zero. -/
theorem gradient_div_by_zero_unreachable :
    ¬ ∃ (l : List (ℚ × Color)) (t p : ℚ) (c₁ c₂ : Color)
        (pre suf : List (ℚ × Color)),
        (Gradient.new l).stops = pre ++ (p, c₁) :: (p, c₂) :: suf ∧
        (∀ s ∈ l, 0 ≤ s.1 ∧ s.1 ≤ 1) ∧
        (Gradient.new l).hitsDivZero t = true := by
  rintro ⟨l, t, p, c₁, c₂, pre, suf, -, -, hz⟩
  rw [hitsDivZero_false] at hz
  exact Bool.false_ne_true hz

theorem f64toU8_coe (x : Fin 256) : f64toU8 ((x.val : ℚ)) = x := by
  have htr : ratTrunc ((x.val : ℕ) : ℚ) = (x.val : ℤ) := by
    unfold ratTrunc
    rw [if_pos (by positivity : (0:ℚ) ≤ ((x.val : ℕ) : ℚ))]
    exact Int.floor_natCast _
  apply Fin.ext
  show (max 0 (min (ratTrunc ((x.val : ℕ) : ℚ)) 255)).toNat = x.val
  rw [htr]
  have := x.isLt
  omega

theorem Color.lerp_one (c₁ c₂ : Color) : Color.lerp c₁ c₂ 1 = c₂ := by
  simp only [Color.lerp]
  rw [show clampQ 1 0 1 = 1 from by norm_num [clampQ]]
  rw [show (c₁.r.val : ℚ) + ((c₂.r.val : ℚ) - (c₁.r.val : ℚ)) * 1 = (c₂.r.val : ℚ) from by ring]
  rw [show (c₁.g.val : ℚ) + ((c₂.g.val : ℚ) - (c₁.g.val : ℚ)) * 1 = (c₂.g.val : ℚ) from by ring]
  rw [show (c₁.b.val : ℚ) + ((c₂.b.val : ℚ) - (c₁.b.val : ℚ)) * 1 = (c₂.b.val : ℚ) from by ring]
  rw [f64toU8_coe, f64toU8_coe, f64toU8_coe]

/-- The position of the last stop (`self.stops.last().unwrap().0`), with a
default for the empty list. -/
def lastPos (stops : List (ℚ × Color)) : ℚ :=
  (stops.getLastD (0, Color.new 0 0 0)).1

theorem lastPos_cons (s : ℚ × Color) (rest : List (ℚ × Color)) :
    lastPos (s :: rest) = ((s :: rest).getLast (List.cons_ne_nil s rest)).1 := by
  rw [lastPos, List.getLastD_eq_getLast?, List.getLast?_eq_getLast _ (List.cons_ne_nil s rest)]
  rfl

theorem get_color_cons (s : ℚ × Color) (rest : List (ℚ × Color)) (t : ℚ) :
    Gradient.get_color ⟨s :: rest⟩ t =
      (if clampQ t 0 1 ≤ s.1 then s.2
       else if ((s :: rest).getLast (List.cons_ne_nil s rest)).1 ≤ clampQ t 0 1 then
         ((s :: rest).getLast (List.cons_ne_nil s rest)).2
       else
         match scanStops (clampQ t 0 1) (s :: rest) with
         | some c => c
         | none => s.2) := rfl

theorem scanStops_first_at (t : ℚ) :
    ∀ (rest : List (ℚ × Color)) (p1 : ℚ) (c1 : Color) (s₀ : ℚ × Color),
      List.Pairwise posLe ((p1, c1) :: rest) → p1 < t →
      rest.find? (fun s => decide (s.1 = t)) = some s₀ →
      scanStops t ((p1, c1) :: rest) = some s₀.2 := by
  intro rest
  induction rest with
  | nil =>
      intro p1 c1 s₀ _ _ hf
      simp at hf
  | cons s rest ih =>
      intro p1 c1 s₀ hpw hlt hf
      obtain ⟨p2, c2⟩ := s
      rw [scanStops_cons₂]
      by_cases hp2 : p2 = t
      · subst hp2
        have hfind_head : ((p2, c2) :: rest).find? (fun x => decide (x.1 = p2)) =
            some (p2, c2) := List.find?_cons_of_pos _ (by simp)
        rw [hfind_head] at hf
        have hs₀ : (p2, c2) = s₀ := Option.some.inj hf
        have hcond : p1 ≤ p2 ∧ p2 ≤ p2 := ⟨le_of_lt hlt, le_refl p2⟩
        rw [if_pos hcond]
        have hne : p2 - p1 ≠ 0 := sub_ne_zero.mpr (ne_of_gt hlt)
        rw [div_self hne, Color.lerp_one, ← hs₀]
      · have hf' : rest.find? (fun x => decide (x.1 = t)) = some s₀ := by
          rw [List.find?_cons_of_neg _
            (by simp only [decide_eq_true_eq]; exact hp2)] at hf
          exact hf
        have hmem : s₀ ∈ rest := List.mem_of_find?_eq_some hf'
        have hs₀t : s₀.1 = t := by simpa using List.find?_some hf'
        have hp2le : p2 ≤ t := by
          have hr := (List.pairwise_cons.mp hpw.of_cons).1 s₀ hmem
          rw [← hs₀t]
          exact hr
        have hp2lt : p2 < t := lt_of_le_of_ne hp2le hp2
        have hcond : ¬ (p1 ≤ t ∧ t ≤ p2) := fun hc => absurd hc.2 (not_le.mpr hp2lt)
        rw [if_neg hcond]
        exact ih p2 c2 s₀ hpw.of_cons hp2lt hf'

/-- Claim C3 (amended): for a constructed gradient whose (sorted) stops
contain an adjacent duplicated position `t` (all positions in `[0, 1]`),
`get_color t` returns the color of the first stop at position `t` in a
left-to-right scan, provided `t` is strictly below the last stop position.
When the duplicated position is the last position of the sequence, the
`t ≥ last` flat-extrapolation early return fires first and the last stop
color is returned instead (see the counterexample). -/
theorem gradient_first_stop_below_last (l : List (ℚ × Color)) (t : ℚ) (s₀ : ℚ × Color)
    (hbounds : ∀ s ∈ l, 0 ≤ s.1 ∧ s.1 ≤ 1)
    (_hdup : ∃ c₁ c₂ pre suf, (Gradient.new l).stops = pre ++ (t, c₁) :: (t, c₂) :: suf)
    (hfind : (Gradient.new l).stops.find? (fun s => decide (s.1 = t)) = some s₀)
    (hlast : t < lastPos (Gradient.new l).stops) :
    (Gradient.new l).get_color t = s₀.2 := by
  clear _hdup
  have hsorted : List.Pairwise posLe (Gradient.new l).stops :=
    List.sorted_insertionSort posLe l
  have hmem₀ : s₀ ∈ (Gradient.new l).stops := List.mem_of_find?_eq_some hfind
  have hs₀t : s₀.1 = t := by simpa using List.find?_some hfind
  have hmem₀l : s₀ ∈ l := ((List.perm_insertionSort posLe l).mem_iff).mp hmem₀
  have hbt : 0 ≤ t ∧ t ≤ 1 := by
    have := hbounds s₀ hmem₀l
    rwa [hs₀t] at this
  have hclamp : clampQ t 0 1 = t := by
    rw [clampQ, min_eq_left hbt.2, max_eq_right hbt.1]
  cases hst : (Gradient.new l).stops with
  | nil =>
      rw [hst] at hfind
      simp at hfind
  | cons s rest =>
      have hg : Gradient.new l = ⟨s :: rest⟩ := by rw [← hst]
      rw [hst] at hfind hsorted hlast hmem₀
      rw [hg, get_color_cons, hclamp]
      by_cases h1 : t ≤ s.1
      · rw [if_pos h1]
        have hsle : s.1 ≤ t := by
          rcases List.mem_cons.mp hmem₀ with h | h
          · rw [← hs₀t, h]
          · have hr := (List.pairwise_cons.mp hsorted).1 s₀ h
            rw [← hs₀t]
            exact hr
        have hseq : s.1 = t := le_antisymm hsle h1
        have hfind_head : ((s :: rest).find? (fun x => decide (x.1 = t))) = some s :=
          List.find?_cons_of_pos _ (by simp [hseq])
        rw [hfind_head] at hfind
        rw [← Option.some.inj hfind]
      · rw [if_neg h1]
        have h1' : s.1 < t := lt_of_not_le h1
        have h2 : ¬ ((s :: rest).getLast (List.cons_ne_nil s rest)).1 ≤ t := by
          rw [lastPos_cons] at hlast
          exact not_le.mpr hlast
        rw [if_neg h2]
        obtain ⟨p1, c1⟩ := s
        have hf' : rest.find? (fun x => decide (x.1 = t)) = some s₀ := by
          rw [List.find?_cons_of_neg _
            (by simp only [decide_eq_true_eq]; exact ne_of_lt h1')] at hfind
          exact hfind
        rw [scanStops_first_at t rest p1 c1 s₀ hsorted h1' hf']

theorem stops_dup_last :
    (Gradient.new [(0, Color.new 1 1 1), (1, Color.new 2 2 2), (1, Color.new 3 3 3)]).stops =
      [(0, Color.new 1 1 1), (1, Color.new 2 2 2), (1, Color.new 3 3 3)] := by
  norm_num [Gradient.new, List.insertionSort, List.orderedInsert, posLe]

/-- Claim C3, concrete refutation for a duplicate at the last position: in
the constructed gradient with stops `(0, A), (1, B), (1, C)` the first stop
at position 1 in a left-to-right scan is `(1, B)`, but `get_color 1` returns
`C` (the `t ≥ last` early return), not `B`. -/
theorem gradient_last_duplicate_breaks_first_rule :
    (Gradient.new [(0, Color.new 1 1 1), (1, Color.new 2 2 2), (1, Color.new 3 3 3)]).stops.find?
        (fun s => decide (s.1 = 1)) = some (1, Color.new 2 2 2) ∧
    (Gradient.new [(0, Color.new 1 1 1), (1, Color.new 2 2 2), (1, Color.new 3 3 3)]).get_color 1 =
      Color.new 3 3 3 ∧
    Color.new 3 3 3 ≠ Color.new 2 2 2 := by
  refine ⟨?_, ?_, by decide⟩
  · rw [stops_dup_last]
    norm_num [List.find?]
  · have hg : Gradient.new [(0, Color.new 1 1 1), (1, Color.new 2 2 2), (1, Color.new 3 3 3)] =
        ⟨[(0, Color.new 1 1 1), (1, Color.new 2 2 2), (1, Color.new 3 3 3)]⟩ :=
      congrArg Gradient.mk stops_dup_last
    rw [hg]
    norm_num [Gradient.get_color, clampQ, List.getLast]

theorem stops_dup_first :
    (Gradient.new [(0, Color.new 1 1 1), (0, Color.new 2 2 2), (1, Color.new 3 3 3)]).stops =
      [(0, Color.new 1 1 1), (0, Color.new 2 2 2), (1, Color.new 3 3 3)] := by
  norm_num [Gradient.new, List.insertionSort, List.orderedInsert, posLe]

/-- Claim C3 witness: duplicated position 0 strictly below the last position
1; `get_color 0` returns the first stop at 0. -/
theorem gradient_first_stop_below_last_witness :
    (Gradient.new [(0, Color.new 1 1 1), (0, Color.new 2 2 2),
      (1, Color.new 3 3 3)]).get_color 0 = Color.new 1 1 1 :=
  gradient_first_stop_below_last
    [(0, Color.new 1 1 1), (0, Color.new 2 2 2), (1, Color.new 3 3 3)] 0
    (0, Color.new 1 1 1)
    (by
      intro s hs
      simp only [List.mem_cons, List.not_mem_nil, or_false] at hs
      rcases hs with rfl | rfl | rfl <;> norm_num)
    (⟨Color.new 1 1 1, Color.new 2 2 2, [], [(1, Color.new 3 3 3)], by
      rw [stops_dup_first]
      rfl⟩)
    (by
      rw [stops_dup_first]
      norm_num [List.find?])
    (by
      rw [stops_dup_first]
      norm_num [lastPos, List.getLastD])

theorem optionCmp_some (qx qy : ℚ) :
    optionCmp (some qx) (some qy) =
      some (if qx < qy then Ordering.lt else if qx = qy then Ordering.eq else Ordering.gt) := rfl

theorem orderedInsertCmp_cons (x y : (Option ℚ) × Color) (l : List ((Option ℚ) × Color)) :
    orderedInsertCmp x (y :: l) =
      (match optionCmp x.1 y.1 with
       | none => none
       | some .gt => (orderedInsertCmp x l).map fun r => y :: r
       | some _ => some (x :: y :: l)) := rfl

theorem stopLeB_some {qx qy : ℚ} (x y : (Option ℚ) × Color)
    (hx : x.1 = some qx) (hy : y.1 = some qy) : stopLeB x y = decide (qx ≤ qy) := by
  simp [stopLeB, hx, hy]

theorem orderedInsertCmp_spec :
    ∀ (l : List ((Option ℚ) × Color)) (x : (Option ℚ) × Color) (qx : ℚ),
      x.1 = some qx →
      (∀ s ∈ l, s.1 ≠ none) → l.Chain' (fun a b => stopLeB a b = true) →
      ∃ r, orderedInsertCmp x l = some r ∧
        r.Chain' (fun a b => stopLeB a b = true) ∧
        (∀ s ∈ r, s.1 ≠ none) ∧
        (r.head? = some x ∨ r.head? = l.head?) ∧
        (∀ p : Option ℚ,
          r.filter (fun s => decide (s.1 = p)) =
            if x.1 = p then x :: l.filter (fun s => decide (s.1 = p))
            else l.filter (fun s => decide (s.1 = p))) := by
  intro l
  induction l with
  | nil =>
      intro x qx hx _ _
      refine ⟨[x], rfl, List.chain'_singleton x, ?_, Or.inl rfl, ?_⟩
      · intro s hs
        rw [List.mem_singleton.mp hs, hx]
        exact Option.some_ne_none qx
      · intro p
        by_cases hp : x.1 = p
        · simp [List.filter, hp]
        · simp [List.filter, hp]
  | cons y l ih =>
      intro x qx hx hnn hch
      have hy : y.1 ≠ none := hnn y (List.mem_cons_self y l)
      obtain ⟨qy, hqy⟩ : ∃ qy, y.1 = some qy := by
        cases hyc : y.1 with
        | none => exact absurd hyc hy
        | some q => exact ⟨q, rfl⟩
      by_cases hle : qx ≤ qy
      · -- x goes right here, before y
        have hins : orderedInsertCmp x (y :: l) = some (x :: y :: l) := by
          rw [orderedInsertCmp_cons, hx, hqy, optionCmp_some]
          rcases lt_or_eq_of_le hle with hlt | heq
          · rw [if_pos hlt]
          · rw [if_neg (by rw [heq]; exact lt_irrefl qy), if_pos heq]
        refine ⟨x :: y :: l, hins, ?_, ?_, Or.inl rfl, ?_⟩
        · rw [List.chain'_cons]
          exact ⟨by rw [stopLeB_some x y hx hqy]; simpa using hle, hch⟩
        · intro s hs
          rcases List.mem_cons.mp hs with rfl | hs'
          · rw [hx]; exact Option.some_ne_none qx
          · exact hnn s hs'
        · intro p
          by_cases hp : x.1 = p
          · simp [List.filter_cons, hp]
          · simp [List.filter_cons, hp]
      · -- qy < qx: keep y, insert into the tail
        have hgt : qy < qx := not_le.mp hle
        have hins_eq : orderedInsertCmp x (y :: l) =
            (orderedInsertCmp x l).map fun r => y :: r := by
          rw [orderedInsertCmp_cons, hx, hqy, optionCmp_some]
          rw [if_neg (not_lt.mpr (le_of_lt hgt)), if_neg (ne_of_gt hgt)]
        obtain ⟨r', hr'some, hr'ch, hr'nn, hr'head, hr'filter⟩ :=
          ih x qx hx (fun s hs => hnn s (List.mem_cons_of_mem y hs)) hch.tail
        refine ⟨y :: r', ?_, ?_, ?_, Or.inr rfl, ?_⟩
        · rw [hins_eq, hr'some]
          rfl
        · rw [List.chain'_cons']
          refine ⟨?_, hr'ch⟩
          intro b hb
          rcases hr'head with hh | hh
          · rw [hh] at hb
            have hbx : b = x := by
              have := hb
              simp only [Option.mem_def, Option.some.injEq] at this
              exact this.symm
            rw [hbx, stopLeB_some y x hqy hx]
            simpa using le_of_lt hgt
          · rw [hh] at hb
            exact (List.chain'_cons'.mp hch).1 b hb
        · intro s hs
          rcases List.mem_cons.mp hs with rfl | hs'
          · exact hy
          · exact hr'nn s hs'
        · intro p
          by_cases hyp : y.1 = p
          · -- then x.1 ≠ p since qy < qx
            have hxp : ¬ x.1 = p := by
              rw [hx]
              rw [hqy] at hyp
              rw [← hyp]
              simp only [Option.some.injEq]
              exact ne_of_gt hgt
            rw [if_neg hxp]
            have := hr'filter p
            rw [if_neg hxp] at this
            simp [List.filter_cons, hyp, this]
          · rw [List.filter_cons, List.filter_cons]
            simp only [hyp, decide_eq_false_iff_not]
            rcases eq_or_ne x.1 p with hxp | hxp
            · have := hr'filter p
              rw [if_pos hxp] at this
              rw [if_pos hxp]
              simpa [hyp] using this
            · have := hr'filter p
              rw [if_neg hxp] at this
              rw [if_neg hxp]
              simpa [hyp] using this

theorem sortByCmp_spec :
    ∀ (l : List ((Option ℚ) × Color)), (∀ s ∈ l, s.1 ≠ none) →
      ∃ r, sortByCmp l = some r ∧
        r.Chain' (fun a b => stopLeB a b = true) ∧
        (∀ s ∈ r, s.1 ≠ none) ∧
        (∀ p : Option ℚ,
          r.filter (fun s => decide (s.1 = p)) = l.filter (fun s => decide (s.1 = p))) := by
  intro l
  induction l with
  | nil => exact fun _ => ⟨[], rfl, List.chain'_nil, by simp, fun p => rfl⟩
  | cons x l ih =>
      intro hnn
      obtain ⟨r, hrsome, hrch, hrnn, hrfilter⟩ :=
        ih fun s hs => hnn s (List.mem_cons_of_mem x hs)
      have hxnn : x.1 ≠ none := hnn x (List.mem_cons_self x l)
      obtain ⟨qx, hqx⟩ : ∃ qx, x.1 = some qx := by
        cases hxc : x.1 with
        | none => exact absurd hxc hxnn
        | some q => exact ⟨q, rfl⟩
      obtain ⟨r', hr'some, hr'ch, hr'nn, _, hr'filter⟩ :=
        orderedInsertCmp_spec r x qx hqx hrnn hrch
      refine ⟨r', ?_, hr'ch, hr'nn, ?_⟩
      · show (sortByCmp l).bind (orderedInsertCmp x) = some r'
        rw [hrsome]
        exact hr'some
      · intro p
        rw [hr'filter p, List.filter_cons]
        by_cases hp : x.1 = p
        · rw [if_pos hp, hrfilter p]
          simp [hp]
        · rw [if_neg hp, hrfilter p]
          simp [hp]

/-- Claim C10: `Gradient::new` is partial at its interface.  The sort
comparator `partial_cmp(..).unwrap()` panics for the two-stop input whose
first position is NaN (modelled: `gradientNewChecked` returns `none`); and
for every stop list with numeric (non-NaN) positions, construction succeeds
and yields a sequence sorted ascending by position that preserves the
relative input order of stops with equal positions (the filter of the output
at any fixed position equals the filter of the input). -/
theorem gradient_new_nan_panics_nonnan_sorts :
    gradientNewChecked [(none, Color.new 0 0 0), (some 0, Color.new 1 1 1)] = none ∧
    ∀ l : List ((Option ℚ) × Color), (∀ s ∈ l, s.1 ≠ none) →
      ∃ r, gradientNewChecked l = some r ∧
        r.Chain' (fun a b => stopLeB a b = true) ∧
        ∀ p : Option ℚ,
          r.filter (fun s => decide (s.1 = p)) = l.filter (fun s => decide (s.1 = p)) := by
  constructor
  · rfl
  · intro l hnn
    obtain ⟨r, hsome, hch, _, hfilter⟩ := sortByCmp_spec l hnn
    exact ⟨r, hsome, hch, hfilter⟩

/-- Claim C10 witness: the two-stop numeric input `(1, A), (0, B)` sorts
(with all hypotheses discharged on the concrete list). -/
theorem gradient_new_nan_panics_nonnan_sorts_witness :
    ∃ r, gradientNewChecked [(some 1, Color.new 9 9 9), (some 0, Color.new 8 8 8)] = some r ∧
      r.Chain' (fun a b => stopLeB a b = true) ∧
      ∀ p : Option ℚ,
        r.filter (fun s => decide (s.1 = p)) =
          [((some 1 : Option ℚ), Color.new 9 9 9),
           ((some 0 : Option ℚ), Color.new 8 8 8)].filter (fun s => decide (s.1 = p)) :=
  gradient_new_nan_panics_nonnan_sorts.2
    [(some 1, Color.new 9 9 9), (some 0, Color.new 8 8 8)]
    (by
      intro s hs
      simp only [List.mem_cons, List.not_mem_nil, or_false] at hs
      rcases hs with rfl | rfl <;> simp)
